import Mathlib

/-!
Verification of the yata streaming-method core and the indicator files under
`src/`. Floating-point `ValueType` (f64) values are embedded as exact
rationals `ℚ` (reals `ℝ` where the code applies `ln`), so all arithmetic
facts below are statements about the code's exact-arithmetic behaviour.
`PeriodType` is embedded as `ℕ`.
-/

namespace Yata

/-- Modelled from the spec: the error enumeration of the core (its source is
not under `src/`). `WrongConfig` and `ParameterParse` appear in the indicator
sources; `InvalidParameter` is the construction-failure kind named by the
spec (§4.1, §7). -/
inductive Error where
  | WrongConfig
  | ParameterParse (name : String) (value : String)
  | InvalidParameter
deriving DecidableEq

/-- Modelled from the spec: `PeriodType::MAX`, the largest value of the
period integer type. The core type itself is not under `src/`; yata's default
period type is `u8`, so `MAX` is fixed at 255. Only `ChaikinMoneyFlow`'s
validation (`size < PeriodType::MAX`) looks at it. -/
def periodTypeMax : ℕ := 255

/-- Modelled from the spec: `Window<T>` (§4.2) — a fixed-capacity FIFO buffer
pre-filled with the seed at construction; `push` inserts one element, evicts
the oldest and returns it. The `Window` source is not under `src/`. The
buffer is stored oldest first. -/
structure Window (α : Type) where
  buf : List α
deriving DecidableEq

/-- Modelled from the spec: `Window::new(capacity, seed)` pre-fills all
`capacity` slots with the seed (§4.2). -/
def Window.new {α : Type} (capacity : ℕ) (seed : α) : Window α :=
  ⟨List.replicate capacity seed⟩

/-- Modelled from the spec: `Window::push` inserts `x`, evicts and returns
the element that was oldest immediately before insertion (§4.2). With an
empty buffer (capacity 0, below every validated domain) push passes the
input through unchanged. -/
def Window.push {α : Type} (w : Window α) (x : α) : α × Window α :=
  match w.buf with
  | [] => (x, w)
  | y :: rest => (y, ⟨rest ++ [x]⟩)

/-! ## RMA (`src/methods/rma.rs`) -/

/-- Embeds `struct RMA` from `src/methods/rma.rs`: fields `alpha`,
`alpha_rev`, `prev_value` of type `ValueType` (f64), modelled as `ℚ`. -/
structure RMA where
  alpha : ℚ
  alpha_rev : ℚ
  prev_value : ℚ
deriving DecidableEq

/-- Embeds `RMA::new(length, value)`: `alpha = (length as ValueType).recip()`
(field inverse in the `ℚ` embedding), `alpha_rev = 1 - alpha`,
`prev_value = value`. The function's return type is `Self`: it has no error
path. Its `debug_assert!(length > 0)` is modelled separately as
`rmaDebugAssert` because it is compiled out of release builds. -/
def RMA.new (length : ℕ) (value : ℚ) : RMA :=
  ⟨(length : ℚ)⁻¹, 1 - (length : ℚ)⁻¹, value⟩

/-- Embeds the `debug_assert!(length > 0, "RMA: length should be > 0")`
guard of `RMA::new`. -/
def rmaDebugAssert (length : ℕ) : Prop := 0 < length

/-- Embeds `RMA::next`:
`value = alpha.mul_add(value, alpha_rev * prev_value)` (exact arithmetic:
`alpha * value + alpha_rev * prev_value`), stored back into `prev_value`
and returned. -/
def RMA.next (s : RMA) (value : ℚ) : ℚ × RMA :=
  (s.alpha * value + s.alpha_rev * s.prev_value,
   ⟨s.alpha, s.alpha_rev, s.alpha * value + s.alpha_rev * s.prev_value⟩)

/-- Feeds a list of inputs through an `RMA` instance, collecting the
outputs of the successive `next` calls. -/
def RMA.run (s : RMA) : List ℚ → List ℚ
  | [] => []
  | x :: xs => (s.next x).1 :: RMA.run (s.next x).2 xs

/-- Modelled from the spec: §4.1 — `construct` "fails with `InvalidParameter`
if parameters violate their stated domain (e.g., period `< 1`)". This is the
checked constructor following the spec's words, for comparison with the
source `RMA.new`, which has no error path. -/
def RMA.newSpec (length : ℕ) (value : ℚ) : Except Error RMA :=
  if length < 1 then Except.error Error.InvalidParameter
  else Except.ok (RMA.new length value)

/-! ## Configuration enumerations and string parsing

`Source` and `RegularMethods` are closed enumerations of the core (not under
`src/`); only their existence matters to the claims, so a few variants are
enough. Parsing a string into a period / value / method / source
(`value.parse()`) happens in the core as well, so the setters below take the
parse functions as parameters: `none` models `Err(_)` of `parse`. -/

/-- Modelled from the spec: price-source selection enumeration (out-of-scope
component, §1); variants as used by the indicator defaults. -/
inductive Source where
  | Close
  | High
  | Low
  | TP
deriving DecidableEq

/-- Modelled from the spec: closed enumeration of moving-average strategies
selectable by name (§9); variants as used by the indicator defaults. -/
inductive RegularMethods where
  | SMA
  | EMA
  | WMA
deriving DecidableEq

/-- Bundle of string-parse functions supplied by the core (`value.parse()`),
abstract here: `none` models a parse error. -/
structure ParseFuns where
  parsePeriod : String → Option ℕ
  parseValue : String → Option ℚ
  parseMethod : String → Option RegularMethods
  parseSource : String → Option Source

/-- A concrete `ParseFuns` whose parsers always fail; used for witnesses. -/
def pfNone : ParseFuns :=
  ⟨fun _ => none, fun _ => none, fun _ => none, fun _ => none⟩

/-! ## ChandeKrollStop configuration (`src/indicators/chande_kroll_stop.rs`) -/

/-- Embeds `struct ChandeKrollStop`: fields `p`, `method`, `x`, `q`,
`source`. -/
structure ChandeKrollStop where
  p : ℕ
  method : RegularMethods
  x : ℚ
  q : ℕ
  source : Source
deriving DecidableEq

/-- Embeds `impl Default for ChandeKrollStop`. -/
def cksDefault : ChandeKrollStop :=
  ⟨10, RegularMethods.SMA, 1, 9, Source.Close⟩

/-- Embeds `ChandeKrollStop::set(name, value)`. The Rust method mutates
`self` and returns `Option<Error>`; here it returns the error option paired
with the resulting configuration. Match arms in source order: `"p"`, `"x"`,
`"q"`, `"source"`; a parse failure or an unknown name returns
`Some(Error::ParameterParse(name, value))` and leaves every field
unchanged. -/
def cksSet (pf : ParseFuns) (cfg : ChandeKrollStop) (name value : String) :
    Option Error × ChandeKrollStop :=
  if name = "p" then
    match pf.parsePeriod value with
    | none => (some (Error.ParameterParse name value), cfg)
    | some v => (none, ⟨v, cfg.method, cfg.x, cfg.q, cfg.source⟩)
  else if name = "x" then
    match pf.parseValue value with
    | none => (some (Error.ParameterParse name value), cfg)
    | some v => (none, ⟨cfg.p, cfg.method, v, cfg.q, cfg.source⟩)
  else if name = "q" then
    match pf.parsePeriod value with
    | none => (some (Error.ParameterParse name value), cfg)
    | some v => (none, ⟨cfg.p, cfg.method, cfg.x, v, cfg.source⟩)
  else if name = "source" then
    match pf.parseSource value with
    | none => (some (Error.ParameterParse name value), cfg)
    | some v => (none, ⟨cfg.p, cfg.method, cfg.x, cfg.q, v⟩)
  else
    (some (Error.ParameterParse name value), cfg)

/-! ## ChandeMomentumOscillator (`src/indicators/chande_momentum_oscillator.rs`) -/

/-- Embeds `struct ChandeMomentumOscillator`: fields `period`, `zone`,
`source`. -/
structure ChandeMomentumOscillator where
  period : ℕ
  zone : ℚ
  source : Source
deriving DecidableEq

/-- Embeds `impl Default for ChandeMomentumOscillator`. -/
def cmoDefault : ChandeMomentumOscillator :=
  ⟨9, 1/2, Source.Close⟩

/-- Embeds `ChandeMomentumOscillator::set(name, value)`. The Rust method
returns `()`; a known field with a malformed value hits
`value.parse().unwrap()`, which aborts the process — modelled as `none`.
An unknown name only runs `dbg!` logging and changes nothing — modelled as
`some cfg` (no error value exists in this setter's signature at all). -/
def cmoSet (pf : ParseFuns) (cfg : ChandeMomentumOscillator)
    (name value : String) : Option ChandeMomentumOscillator :=
  if name = "period" then
    (pf.parsePeriod value).map fun v => ⟨v, cfg.zone, cfg.source⟩
  else if name = "zone" then
    (pf.parseValue value).map fun v => ⟨cfg.period, v, cfg.source⟩
  else if name = "source" then
    (pf.parseSource value).map fun v => ⟨cfg.period, cfg.zone, v⟩
  else
    some cfg

/-- Embeds the free function `change` of
`chande_momentum_oscillator.rs` (lines 86–94), branchless form:
`pos = (change > 0.) as i8 as f64 * change`,
`neg = (change < 0.) as i8 as f64 * -change`. The boolean-to-number cast is
modelled as `if _ then 1 else 0`. -/
def cmoChange (x : ℚ) : ℚ × ℚ :=
  ((if 0 < x then (1 : ℚ) else 0) * x, (if x < 0 then (1 : ℚ) else 0) * (-x))

/-- The explicit conditional reimplementation of `change` named by the spec
(§9, and present as a comment in the source):
`pos = if change > 0. { change } else { 0. }`,
`neg = if change < 0. { -change } else { 0. }`. -/
def cmoChangeCond (x : ℚ) : ℚ × ℚ :=
  (if 0 < x then x else 0, if x < 0 then -x else 0)

/-- Modelled from the spec: the `Change` method of period 1 (its source is
not under `src/`): it reports the difference between the current input and
the previous one, seeded with the construction input. The state is the
previously seen input. -/
structure Change where
  prev : ℚ
deriving DecidableEq

/-- Embeds `ChandeMomentumOscillatorInstance` state: `pos_sum`, `neg_sum`,
the `Change(1)` method and the `Window` of per-step changes. The
`cross_under` / `cross_above` detectors only shape the emitted signal and
never feed back into this state, so they are not carried here. -/
structure CMOInstance where
  posSum : ℚ
  negSum : ℚ
  change : Change
  window : Window ℚ
deriving DecidableEq

/-- Embeds `ChandeMomentumOscillator::init(candle)` (old-style: returns the
instance directly, no `Result`): `pos_sum = 0`, `neg_sum = 0`,
`Change::new(1, candle.source(cfg.source))`, `Window::new(cfg.period, 0.)`.
The candle enters only through its selected source value `src0`. -/
def cmoInit (cfg : ChandeMomentumOscillator) (src0 : ℚ) : CMOInstance :=
  ⟨0, 0, ⟨src0⟩, Window.new cfg.period 0⟩

/-- Embeds `ChandeMomentumOscillatorInstance::next` (lines 104–124), up to
the emitted `value`: `ch = change.next(src)`, `left_value = window.push(ch)`,
split both through `change`, update `pos_sum` / `neg_sum`, and divide only
when `pos_sum != 0 || neg_sum != 0`. The signal (cross detectors against the
zone) does not feed back into this state and is omitted. -/
def cmoNext (st : CMOInstance) (src : ℚ) : ℚ × CMOInstance :=
  let ch := src - st.change.prev
  let pushed := st.window.push ch
  let lhs := cmoChange pushed.1
  let rhs := cmoChange ch
  let posSum' := st.posSum + (rhs.1 - lhs.1)
  let negSum' := st.negSum + (rhs.2 - lhs.2)
  let value :=
    if posSum' ≠ 0 ∨ negSum' ≠ 0 then (posSum' - negSum') / (posSum' + negSum')
    else 0
  (value, ⟨posSum', negSum', ⟨src⟩, pushed.2⟩)

/-- State reached after feeding a list of source values through
`ChandeMomentumOscillatorInstance::next`. -/
def cmoRunState (st : CMOInstance) (srcs : List ℚ) : CMOInstance :=
  srcs.foldl (fun s x => (cmoNext s x).2) st

/-- Sum of the `pos` parts of a buffer's contents under `change`. -/
def sumPos (l : List ℚ) : ℚ := (l.map fun x => (cmoChange x).1).sum

/-- Sum of the `neg` parts of a buffer's contents under `change`. -/
def sumNeg (l : List ℚ) : ℚ := (l.map fun x => (cmoChange x).2).sum

/-! ## ChaikinMoneyFlow (`src/indicators/chaikin_money_flow.rs`) -/

/-- Embeds `struct ChaikinMoneyFlow`: single field `size`. -/
structure ChaikinMoneyFlow where
  size : ℕ
deriving DecidableEq

/-- Embeds `ChaikinMoneyFlow::validate`:
`self.size > 1 && self.size < PeriodType::MAX`. -/
def cmfValidate (cfg : ChaikinMoneyFlow) : Prop :=
  1 < cfg.size ∧ cfg.size < periodTypeMax

instance (cfg : ChaikinMoneyFlow) : Decidable (cmfValidate cfg) :=
  inferInstanceAs (Decidable (_ ∧ _))

/-- Embeds `ChaikinMoneyFlowInstance` state for the accumulator claim:
`vol_sum` and the `Window` of per-candle volumes. The `adi` method and the
`cross_over` detector (both sources not under `src/`) only shape the emitted
value/signal and never feed back into `vol_sum` or the window, so they are
not carried here. -/
structure CMFInstance where
  volSum : ℚ
  window : Window ℚ
deriving DecidableEq

/-- Embeds `ChaikinMoneyFlow::init(candle)`: returns
`Err(Error::WrongConfig)` when `!self.validate()`, before any instance state
is built; otherwise the instance with
`vol_sum = candle.volume() * cfg.size as ValueType` and
`window = Window::new(cfg.size, candle.volume())`. The candle enters only
through its volume. -/
def cmfInit (cfg : ChaikinMoneyFlow) (volume : ℚ) : Except Error CMFInstance :=
  if cmfValidate cfg then
    Except.ok ⟨volume * cfg.size, Window.new cfg.size volume⟩
  else
    Except.error Error.WrongConfig

/-- Embeds the `vol_sum` update of `ChaikinMoneyFlowInstance::next`
(line 114): `self.vol_sum += candle.volume() - self.window.push(candle.volume())`. -/
def cmfStep (st : CMFInstance) (volume : ℚ) : CMFInstance :=
  let pushed := st.window.push volume
  ⟨st.volSum + (volume - pushed.1), pushed.2⟩

/-- State reached after feeding a list of candle volumes through
`ChaikinMoneyFlowInstance::next`. -/
def cmfRun (st : CMFInstance) (vs : List ℚ) : CMFInstance :=
  vs.foldl cmfStep st

/-- The last `n` elements of a list. -/
def lastN (n : ℕ) (l : List ℚ) : List ℚ := l.drop (l.length - n)

/-! ## Extremum tracker: Highest / Lowest

`src/methods/mod.rs` declares `mod highest_lowest` (lines 72–73) but the
module's source is not under `src/`. Modelled from the spec (§4.3, §3):
a double-ended queue of `(value, logical time)` candidates; on each step the
clock is incremented, dominated candidates are popped from the back
(non-strict comparison: "pop while back ≤ new"), the new value is pushed at
the back, entries older than `period` steps are popped from the front, and
the front's value is reported. The deque is stored newest first, so the
"back" is the head of the list and the "front" is its last element. -/

/-- Modelled from the spec: state of the extremum tracker — period, deque of
`(value, logical time)` candidates (newest first), and the logical clock. -/
structure HLState (α : Type) where
  period : ℕ
  deque : List (α × ℕ)
  now : ℕ

/-- Modelled from the spec: construction seeds the tracker with the seed
value at logical time 0, so that history before the first input is the seed;
the seed entry ages out exactly `period` steps later. -/
def hlNew {α : Type} (period : ℕ) (seed : α) : HLState α :=
  ⟨period, [(seed, 0)], 0⟩

/-- Modelled from the spec: one step of the extremum tracker (§4.3),
parameterised by the domination test `domb v x` ("the candidate `v` can
never again be the answer once `x` arrives"): increment the clock, pop
dominated candidates from the back (head of the newest-first list), push
`(x, now)`, drop entries whose time has left the trailing window (an entry
of time `t` is alive while `now < t + period`; expired entries form a
suffix of the newest-first list, so filtering equals popping them from the
front), and report the front's value. -/
def hlStep {α : Type} (domb : α → α → Bool) (s : HLState α) (x : α) :
    α × HLState α :=
  let now := s.now + 1
  let kept := s.deque.dropWhile fun e => domb e.1 x
  let trimmed := ((x, now) :: kept).filter fun e => decide (now < e.2 + s.period)
  ((trimmed.getLastD (x, now)).1, ⟨s.period, trimmed, now⟩)

/-- Outputs of the extremum tracker over a list of inputs. -/
def hlRunList {α : Type} (domb : α → α → Bool) :
    HLState α → List α → List α
  | _, [] => []
  | s, x :: xs => (hlStep domb s x).1 :: hlRunList domb (hlStep domb s x).2 xs

/-- Modelled from the spec: the `Highest` domination test — pop while the
back holds a value `≤` the incoming value (max-variant, non-strict). -/
def highestDomb {α : Type} [LinearOrder α] : α → α → Bool :=
  fun v x => decide (v ≤ x)

/-- Modelled from the spec: the `Lowest` domination test (the mirror) — pop
while the back holds a value `≥` the incoming value. -/
def lowestDomb {α : Type} [LinearOrder α] : α → α → Bool :=
  fun v x => decide (x ≤ v)

/-- Output stream of `Highest::new(period, seed)` over the inputs `xs`. -/
def highestRun {α : Type} [LinearOrder α] (period : ℕ) (seed : α)
    (xs : List α) : List α :=
  hlRunList highestDomb (hlNew period seed) xs

/-- Output stream of `Lowest::new(period, seed)` over the inputs `xs`. -/
def lowestRun {α : Type} [LinearOrder α] (period : ℕ) (seed : α)
    (xs : List α) : List α :=
  hlRunList lowestDomb (hlNew period seed) xs

/-- The value of the input stream at logical time `t` (1-indexed inputs):
time 0 — and, by truncated subtraction, every time "before index 0" — is the
seed. -/
def histVal {α : Type} (seed : α) (xs : List α) (t : ℕ) : α :=
  if t = 0 then seed else xs.getD (t - 1) seed

/-- Brute-force recomputation of the trailing maximum: at step `k` (after
`k` inputs) the maximum of the `p` values at times `k, k-1, …, k-p+1`,
treating history before index 0 as the seed. -/
def bruteHighest {α : Type} [LinearOrder α] (seed : α) (xs : List α)
    (p k : ℕ) : α :=
  ((List.range p).map fun i => histVal seed xs (k - i)).foldl max
    (histVal seed xs k)

/-- Brute-force recomputation of the trailing minimum (mirror of
`bruteHighest`). -/
def bruteLowest {α : Type} [LinearOrder α] (seed : α) (xs : List α)
    (p k : ℕ) : α :=
  ((List.range p).map fun i => histVal seed xs (k - i)).foldl min
    (histVal seed xs k)

/-- `v` is an extremum of the trailing window at step `k` with respect to
the order `le'`: it is attained at some window time and bounds (in `le'`)
the value at every window time. A time `t` is in the window when `t ≤ k`
and `k < t + p`. -/
def windowGreatest {α : Type} (le' : α → α → Prop) (seed : α) (xs : List α)
    (p k : ℕ) (v : α) : Prop :=
  (∃ t, t ≤ k ∧ k < t + p ∧ histVal seed xs t = v) ∧
  ∀ t, t ≤ k → k < t + p → le' (histVal seed xs t) v

/-- Invariant of the extremum tracker's deque after `k` steps: the clock
reads `k`; every entry carries the history value of its time, which lies in
the trailing window; along the newest-first deque times strictly decrease
and values strictly increase (in `le'`); and every window time is dominated
by some deque entry at least as recent with a value at least as large. -/
def dequeInv {α : Type} (le' : α → α → Prop) (seed : α) (xs : List α)
    (p k : ℕ) (s : HLState α) : Prop :=
  s.period = p ∧ s.now = k ∧
  (∀ e ∈ s.deque, e.1 = histVal seed xs e.2 ∧ e.2 ≤ k ∧ k < e.2 + p) ∧
  s.deque.Pairwise (fun a b => ¬le' b.1 a.1 ∧ b.2 < a.2) ∧
  ∀ t, t ≤ k → k < t + p → ∃ e ∈ s.deque, t ≤ e.2 ∧ le' (histVal seed xs t) e.1

/-! ## TVFisherTransform (`src/indicators/tv_fisher_transform.rs`)

The Fisher transform applies `ln`, so this component is embedded over `ℝ`.
The candle enters `next` only through `candle.source(self.cfg.source)`, so
inputs are the selected source values. The configuration fields `period2`,
`delta`, `method` and `source` configure the `ma1` sub-method and source
selection; `ma1` and `cross_over` are never used by `next` and do not feed
back into any state read by `next`, so they are not carried here. -/

/-- Embeds the configuration fields of `struct TVFisherTransform` that
`next` reads: `period1` and `zone`. -/
structure TVFConfig where
  period1 : ℕ
  zone : ℝ

/-- Embeds the `period1` part of `TVFisherTransform::validate`
(`self.period1 >= 3`; the `delta` and `period2` conjuncts concern the
omitted sub-components). -/
def tvfValidate (cfg : TVFConfig) : Prop := 3 ≤ cfg.period1

/-- Embeds `TVFisherTransformInstance` state:
`highest`, `lowest`, `extreme`, `prev_value`, `prev_fish`, `prev_state`,
plus the configuration. -/
structure TVFInstance where
  cfg : TVFConfig
  highest : HLState ℝ
  lowest : HLState ℝ
  extreme : ℤ
  prev_value : ℝ
  prev_fish : ℝ
  prev_state : Bool

/-- Embeds `(h != l) as i8 as ValueType` (line 149). -/
noncomputable def tvfIsDifferent (h l : ℝ) : ℝ := if h ≠ l then 1 else 0

/-- Embeds the normalisation divisor `h - l + 1. - is_different`
(line 150). -/
noncomputable def tvfDivisor (h l : ℝ) : ℝ := h - l + 1 - tvfIsDifferent h l

/-- Embeds `bound_value` (lines 130–132): `value.min(BOUND).max(-BOUND)`
with `BOUND = 0.999`. -/
noncomputable def boundValue (v : ℝ) : ℝ := max (min v 0.999) (-0.999)

/-- Embeds `TVFisherTransform::init(candle)` state construction:
`Highest::new(period1, src)`, `Lowest::new(period1, src)`, `extreme = 0`,
`prev_value = 0`, `prev_fish = 0`, `prev_state = false`. -/
noncomputable def tvfInit (cfg : TVFConfig) (src : ℝ) : TVFInstance :=
  ⟨cfg, hlNew cfg.period1 src, hlNew cfg.period1 src, 0, 0, 0, false⟩

/-- Per-step output of `TVFisherTransformInstance::next`: the value pair
`[fisher_transform, prev_fish]` and the two signals. -/
structure TVFOut where
  value1 : ℝ
  value2 : ℝ
  s1 : ℤ
  s2 : ℤ

/-- The `h` of a `next` step: `self.highest.next(src)` (line 145). -/
noncomputable def tvfH (st : TVFInstance) (src : ℝ) : ℝ :=
  (hlStep highestDomb st.highest src).1

/-- The `l` of a `next` step: `self.lowest.next(src)` (line 146). -/
noncomputable def tvfL (st : TVFInstance) (src : ℝ) : ℝ :=
  (hlStep lowestDomb st.lowest src).1

/-- The `v1` of a `next` step (line 150):
`0.66 * ((src - l) / (h - l + 1. - is_different) - 0.5) + 0.67 * prev_value`. -/
noncomputable def tvfV1 (st : TVFInstance) (src : ℝ) : ℝ :=
  0.66 * ((src - tvfL st src) / tvfDivisor (tvfH st src) (tvfL st src) - 0.5) +
    0.67 * st.prev_value

/-- The `fisher_transform` of a `next` step (line 156):
`0.5 * ((1.0 + bound_val)/(1.0 - bound_val)).ln() + 0.5 * prev_fish`. -/
noncomputable def tvfFisher (st : TVFInstance) (src : ℝ) : ℝ :=
  0.5 * Real.log ((1 + boundValue (tvfV1 st src)) /
      (1 - boundValue (tvfV1 st src))) +
    0.5 * st.prev_fish

/-- Embeds `TVFisherTransformInstance::next` (lines 141–203), assembled from
`tvfH`, `tvfL`, `tvfV1` and `tvfFisher` above: the `extreme` update
(line 158), signal 1 (line 180), and the signal-2 edge detector
(`new_state = fisher_transform > prev_fish`; `si = new_state as i8 * 2 - 1`;
`s2 = if new_state != prev_state { si } else { 0 }`, lines 190–193); finally
`prev_value`, `prev_fish` and `prev_state` are stored back and the value
pair `[fisher_transform, pf]` is emitted. -/
noncomputable def tvfNext (st : TVFInstance) (src : ℝ) : TVFOut × TVFInstance :=
  let fisher := tvfFisher st src
  let extreme : ℤ := (if fisher < st.cfg.zone then 1 else 0) -
    (if st.cfg.zone < fisher then 1 else 0)
  let s1 : ℤ := (if extreme = -1 ∧ 0 < fisher - st.prev_fish then 1 else 0) -
    (if extreme = 1 ∧ fisher - st.prev_fish < 0 then 1 else 0)
  let new_state : Bool := decide (st.prev_fish < fisher)
  let si : ℤ := (if new_state then 1 else 0) * 2 - 1
  let s2 : ℤ := if new_state ≠ st.prev_state then si else 0
  (⟨fisher, st.prev_fish, s1, s2⟩,
   ⟨st.cfg, (hlStep highestDomb st.highest src).2,
    (hlStep lowestDomb st.lowest src).2, extreme, tvfV1 st src, fisher,
    new_state⟩)

/-- State reached after feeding a list of source values through
`TVFisherTransformInstance::next`. -/
noncomputable def tvfRunState (st : TVFInstance) (srcs : List ℝ) : TVFInstance :=
  srcs.foldl (fun s x => (tvfNext s x).2) st

/-- Concrete configuration for the signal-2 analysis: `period1 = 3`
(the smallest valid value), `zone = 1.5` (the default). -/
noncomputable def tvfCfg : TVFConfig := ⟨3, 1.5⟩

/-- The reachable state used against claim C4: construct at seed source 0,
then feed the single source value 1. -/
noncomputable def tvfSt1 : TVFInstance := tvfRunState (tvfInit tvfCfg 0) [1]

/-- The bound value targeted by the step after `tvfSt1`:
`(√(133/67) - 1)/(√(133/67) + 1)`, i.e. the `b` with
`(1 + b)/(1 - b) = √(133/67)`. -/
noncomputable def tvfBeta : ℝ :=
  (Real.sqrt (133 / 67) - 1) / (Real.sqrt (133 / 67) + 1)

/-- The source value fed in the step after `tvfSt1`: chosen so that the step
computes `bound_val = tvfBeta`, which makes the new fisher value coincide
exactly with the stored `prev_fish`. -/
noncomputable def tvfSrc2 : ℝ := (tvfBeta + 0.1089) / 0.66

/-- A hand-built state with `prev_fish = 0`, `prev_state = false` and
`prev_value = 33/67`, at which feeding the source value 0 reproduces
`fisher_transform = prev_fish` exactly (the log term vanishes). -/
noncomputable def tvfWitnessState : TVFInstance :=
  ⟨tvfCfg, hlNew 3 0, hlNew 3 0, 0, 33 / 67, 0, false⟩

/-! # Theorems -/

/-! ## Windowed running sums (C2, C10 machinery) -/

/-- Running `cmfStep` from a state whose total is the buffer's sum keeps the
total equal to the buffer's sum, and the buffer after `k` pushes is the
original buffer extended by the inputs with its first `k` elements
dropped. -/
theorem cmfRun_buf_sum :
    ∀ (vs buf : List ℚ), buf ≠ [] →
      cmfRun ⟨buf.sum, ⟨buf⟩⟩ vs =
        ⟨((buf ++ vs).drop vs.length).sum, ⟨(buf ++ vs).drop vs.length⟩⟩ := by
  intro vs
  induction vs with
  | nil => intro buf _; simp [cmfRun]
  | cons x vs ih =>
    intro buf hb
    match buf, hb with
    | b :: rest, _ =>
      have hstep : cmfRun ⟨(b :: rest).sum, ⟨b :: rest⟩⟩ (x :: vs) =
          cmfRun ⟨(rest ++ [x]).sum, ⟨rest ++ [x]⟩⟩ vs := by
        show cmfRun (cmfStep _ x) vs = _
        have : cmfStep ⟨(b :: rest).sum, ⟨b :: rest⟩⟩ x =
            ⟨(rest ++ [x]).sum, ⟨rest ++ [x]⟩⟩ := by
          simp only [cmfStep, Window.push, List.sum_cons, List.sum_append,
            List.sum_singleton, List.sum_nil]
          congr 1
          ring
        rw [this]
      rw [hstep, ih (rest ++ [x]) (by simp)]
      have harr : (rest ++ [x]) ++ vs = rest ++ x :: vs := by simp
      have hdrop : ((b :: rest) ++ x :: vs).drop (x :: vs).length =
          ((rest ++ [x]) ++ vs).drop vs.length := by
        rw [harr, List.length_cons, List.cons_append, List.drop_succ_cons]
      rw [hdrop]

/-- Splitting the dropped concatenation of a seed-filled buffer and the
inputs into the claim's form: the last `min k p` inputs plus `p - k` seed
copies. -/
theorem drop_replicate_sum (p : ℕ) (v : ℚ) (vs : List ℚ) :
    ((List.replicate p v ++ vs).drop vs.length).sum =
      (lastN (min vs.length p) vs).sum + ((p - vs.length : ℕ) : ℚ) * v := by
  rcases le_or_lt vs.length p with h | h
  · rw [List.drop_append_of_le_length (by simpa using h)]
    rw [List.drop_replicate, List.sum_append, List.sum_replicate,
      nsmul_eq_mul]
    rw [lastN, min_eq_left h, Nat.sub_self, List.drop_zero]
    ring
  · rw [List.drop_append_eq_append_drop,
      List.drop_eq_nil_of_le (by simpa using h.le), List.nil_append]
    rw [lastN, min_eq_right h.le, Nat.sub_eq_zero_of_le h.le]
    simp

/-- C2: in `ChaikinMoneyFlowInstance` (period `p = size`, seed the initial
candle's volume), after `k` successful `next` calls the field `vol_sum`
equals, in exact arithmetic, the sum of the volumes of the last `min(k, p)`
candles plus `p - k` copies of the seed volume while warming up, maintained
from the initial value `p * seed` by `total += new - window.push(new)`. -/
theorem C2_cmf_vol_sum_exact (p : ℕ) (v : ℚ) (vs : List ℚ) (st : CMFInstance)
    (h : cmfInit ⟨p⟩ v = Except.ok st) :
    (cmfRun st vs).volSum =
      (lastN (min vs.length p) vs).sum + ((p - vs.length : ℕ) : ℚ) * v := by
  rw [cmfInit] at h
  split at h
  case isFalse => exact absurd h (by simp)
  case isTrue hv =>
    have hst : st = ⟨v * p, Window.new p v⟩ := by
      injection h with h'
      exact h'.symm
    subst hst
    have hp : 1 ≤ p := hv.1.le
    have hsum : (v * p : ℚ) = (List.replicate p v).sum := by
      rw [List.sum_replicate, nsmul_eq_mul]
      ring
    have hwin : Window.new p v = Window.mk (List.replicate p v) := rfl
    rw [show (⟨v * ↑p, Window.new p v⟩ : CMFInstance) =
        ⟨(List.replicate p v).sum, ⟨List.replicate p v⟩⟩ by rw [hsum, hwin]]
    rw [cmfRun_buf_sum vs (List.replicate p v)
      (List.ne_nil_of_length_pos (by simpa using hp))]
    exact drop_replicate_sum p v vs

/-- Witness for C2: period 2, seed volume 0, contributions `3, 5, 2, 4`
(spec scenario 5); the final total is `2 + 4 = 6`. -/
theorem C2_cmf_vol_sum_exact_witness :
    (cmfRun ⟨0, ⟨[0, 0]⟩⟩ [3, 5, 2, 4]).volSum =
      (lastN (min ([3, 5, 2, 4] : List ℚ).length 2) [3, 5, 2, 4]).sum +
        ((2 - ([3, 5, 2, 4] : List ℚ).length : ℕ) : ℚ) * 0 :=
  C2_cmf_vol_sum_exact 2 0 [3, 5, 2, 4] ⟨0, ⟨[0, 0]⟩⟩ (by
    norm_num [cmfInit, cmfValidate, periodTypeMax, Window.new,
      List.replicate])

/-! ## C3: RMA construction with length 0 -/

/-- C3 counterexample: `RMA::new(0, 7)` does not fail — the source
constructor has no error path and returns an instance carrying the seed —
whereas the spec's checked constructor (`RMA.newSpec`, following the spec's
words) reports `InvalidParameter` for the same input. -/
theorem C3_rma_new_counterexample :
    (RMA.new 0 7).prev_value = 7 ∧
      RMA.newSpec 0 7 = Except.error Error.InvalidParameter :=
  ⟨rfl, rfl⟩

/-- C3 amended: for every seed, constructing an RMA with length `< 1`
violates the `debug_assert!` guard (so debug builds panic), but the
function has no `InvalidParameter` error path: in release builds it still
returns an instance storing the seed. -/
theorem C3_rma_new_amended (length : ℕ) (seed : ℚ) (h : length < 1) :
    ¬rmaDebugAssert length ∧ (RMA.new length seed).prev_value = seed := by
  refine ⟨?_, rfl⟩
  rw [rmaDebugAssert]
  omega

/-- Witness for the amended C3 at `length = 0`, `seed = 7`. -/
theorem C3_rma_new_amended_witness :
    (0 : ℕ) < 1 ∧ ¬rmaDebugAssert 0 ∧ (RMA.new 0 7).prev_value = 7 :=
  ⟨by norm_num, C3_rma_new_amended 0 7 (by norm_num)⟩

/-! ## C5: ChaikinMoneyFlow construction failure -/

/-- C5: for every `size ≤ 1` or `size = PeriodType::MAX` and every seed
volume, `ChaikinMoneyFlow::init` returns `Err(Error::WrongConfig)`; the
`Except.error` result carries no instance, so no instance state exists
after the failure. -/
theorem C5_cmf_init_wrong_config (size : ℕ) (volume : ℚ)
    (h : size ≤ 1 ∨ size = periodTypeMax) :
    cmfInit ⟨size⟩ volume = Except.error Error.WrongConfig := by
  rw [cmfInit, if_neg]
  intro hv
  rw [cmfValidate] at hv
  obtain ⟨h1, h2⟩ := hv
  dsimp only at h1 h2
  rcases h with h | h
  · omega
  · rw [h] at h2
    exact lt_irrefl _ h2

/-- Witness for C5 at `size = 1`, volume 5. -/
theorem C5_cmf_init_wrong_config_witness :
    cmfInit ⟨1⟩ 5 = Except.error Error.WrongConfig :=
  C5_cmf_init_wrong_config 1 5 (Or.inl (by norm_num))

/-! ## C6: the two setter styles -/

/-- C6: on every field name outside its own known set (`p`, `x`, `q`,
`source`) and every value, `ChandeKrollStop::set` returns
`Some(Error::ParameterParse(name, value))` with every configuration field
unchanged, while — independently — on every name outside its own known set
(`period`, `zone`, `source`) `ChandeMomentumOscillator::set` returns
without any error value (it only logs) and likewise changes nothing. The
two setters are quantified over separate names, so each part covers the
full unknown set of its own setter (including names the other setter
knows). -/
theorem C6_setter_styles (pf : ParseFuns) (c1 : ChandeKrollStop)
    (c2 : ChandeMomentumOscillator) (name1 value1 name2 value2 : String)
    (hks : name1 ≠ "p" ∧ name1 ≠ "x" ∧ name1 ≠ "q" ∧ name1 ≠ "source")
    (hmo : name2 ≠ "period" ∧ name2 ≠ "zone" ∧ name2 ≠ "source") :
    cksSet pf c1 name1 value1 =
        (some (Error.ParameterParse name1 value1), c1) ∧
      cmoSet pf c2 name2 value2 = some c2 := by
  obtain ⟨k1, k2, k3, k4⟩ := hks
  obtain ⟨m1, m2, m3⟩ := hmo
  constructor
  · rw [cksSet, if_neg k1, if_neg k2, if_neg k3, if_neg k4]
  · rw [cmoSet, if_neg m1, if_neg m2, if_neg m3]

/-- Witness for C6 at names each setter does not know but the other does:
`"period"` is unknown to `ChandeKrollStop::set` (whose fields are `p`, `x`,
`q`, `source`) and `"p"` is unknown to
`ChandeMomentumOscillator::set` (whose fields are `period`, `zone`,
`source`). -/
theorem C6_setter_styles_witness :
    cksSet pfNone cksDefault "period" "10" =
      (some (Error.ParameterParse "period" "10"), cksDefault) ∧
      cmoSet pfNone cmoDefault "p" "10" = some cmoDefault :=
  C6_setter_styles pfNone cksDefault cmoDefault "period" "10" "p" "10"
    ⟨by decide, by decide, by decide, by decide⟩
    ⟨by decide, by decide, by decide⟩

/-! ## C7: branchless `change` helper -/

/-- C7: for every input, the branchless helper `change` of
`chande_momentum_oscillator.rs` returns the same pair as the explicit
conditional definition. -/
theorem C7_branchless_change_eq (x : ℚ) : cmoChange x = cmoChangeCond x := by
  rw [cmoChange, cmoChangeCond]
  split_ifs <;> simp

/-! ## C8: RMA determinism -/

/-- C8: two RMA instances constructed with identical `(length, seed)` and
fed the identical input sequence produce identical output sequences. In
this embedding every step is a pure function of the state, so replaying the
same inputs from the same construction reproduces identical outputs. -/
theorem C8_rma_deterministic (length : ℕ) (seed : ℚ) (xs : List ℚ)
    (i1 i2 : RMA) (_hlen : 1 ≤ length) (h1 : i1 = RMA.new length seed)
    (h2 : i2 = RMA.new length seed) : RMA.run i1 xs = RMA.run i2 xs := by
  subst h1
  subst h2
  rfl

/-- Witness for C8 at `length = 3`, `seed = 1`, inputs `[1, 2, 3]`. -/
theorem C8_rma_deterministic_witness :
    1 ≤ 3 ∧ RMA.run (RMA.new 3 1) [1, 2, 3] = RMA.run (RMA.new 3 1) [1, 2, 3] :=
  ⟨by norm_num,
   C8_rma_deterministic 3 1 [1, 2, 3] (RMA.new 3 1) (RMA.new 3 1)
     (by norm_num) rfl rfl⟩

/-! ## C10: ChandeMomentumOscillator sum invariants -/

/-- Each `pos` part produced by `change` is non-negative. -/
theorem cmoChange_pos_nonneg (x : ℚ) : 0 ≤ (cmoChange x).1 := by
  have hfst : (cmoChange x).1 = (if 0 < x then (1 : ℚ) else 0) * x := rfl
  rw [hfst]
  split_ifs with h
  · simpa using h.le
  · simp

/-- Each `neg` part produced by `change` is non-negative. -/
theorem cmoChange_neg_nonneg (x : ℚ) : 0 ≤ (cmoChange x).2 := by
  have hsnd : (cmoChange x).2 = (if x < 0 then (1 : ℚ) else 0) * (-x) := rfl
  rw [hsnd]
  split_ifs with h
  · simpa using neg_nonneg.mpr h.le
  · simp

/-- Sums of `pos` parts over a buffer are non-negative. -/
theorem sumPos_nonneg (l : List ℚ) : 0 ≤ sumPos l := by
  refine List.sum_nonneg ?_
  intro x hx
  obtain ⟨y, -, rfl⟩ := List.mem_map.mp hx
  exact cmoChange_pos_nonneg y

/-- Sums of `neg` parts over a buffer are non-negative. -/
theorem sumNeg_nonneg (l : List ℚ) : 0 ≤ sumNeg l := by
  refine List.sum_nonneg ?_
  intro x hx
  obtain ⟨y, -, rfl⟩ := List.mem_map.mp hx
  exact cmoChange_neg_nonneg y

/-- One `next` call preserves the "sums are the window's pos/neg totals"
invariant. -/
theorem cmoNext_preserves (st : CMOInstance) (src : ℚ)
    (h1 : st.posSum = sumPos st.window.buf)
    (h2 : st.negSum = sumNeg st.window.buf) :
    (cmoNext st src).2.posSum = sumPos (cmoNext st src).2.window.buf ∧
      (cmoNext st src).2.negSum = sumNeg (cmoNext st src).2.window.buf := by
  obtain ⟨ps, ns, ⟨pv⟩, ⟨buf⟩⟩ := st
  simp only at h1 h2
  cases buf with
  | nil =>
    constructor <;> simp [cmoNext, Window.push, h1, h2]
  | cons b rest =>
    constructor <;>
      simp [cmoNext, Window.push, h1, h2, sumPos, sumNeg,
        List.sum_append] <;> ring

/-- Running any source sequence preserves the invariant. -/
theorem cmoRunState_preserves :
    ∀ (srcs : List ℚ) (st : CMOInstance),
      st.posSum = sumPos st.window.buf → st.negSum = sumNeg st.window.buf →
      (cmoRunState st srcs).posSum = sumPos (cmoRunState st srcs).window.buf ∧
        (cmoRunState st srcs).negSum = sumNeg (cmoRunState st srcs).window.buf := by
  intro srcs
  induction srcs with
  | nil => intro st h1 h2; exact ⟨h1, h2⟩
  | cons x srcs ih =>
    intro st h1 h2
    obtain ⟨g1, g2⟩ := cmoNext_preserves st x h1 h2
    exact ih ((cmoNext st x).2) g1 g2

/-- C10: every state of `ChandeMomentumOscillatorInstance` reachable from
`init` by `next` calls has `pos_sum` and `neg_sum` equal, in exact
arithmetic, to the sums of the non-negative pos/neg parts of the window's
contents; both sums are non-negative, and whenever the division branch is
taken (`pos_sum != 0 || neg_sum != 0`) the divisor `pos_sum + neg_sum` is
strictly positive. -/
theorem C10_cmo_sums_invariant (cfg : ChandeMomentumOscillator) (src0 : ℚ)
    (srcs : List ℚ) :
    (cmoRunState (cmoInit cfg src0) srcs).posSum =
      sumPos (cmoRunState (cmoInit cfg src0) srcs).window.buf ∧
    (cmoRunState (cmoInit cfg src0) srcs).negSum =
      sumNeg (cmoRunState (cmoInit cfg src0) srcs).window.buf ∧
    0 ≤ (cmoRunState (cmoInit cfg src0) srcs).posSum ∧
    0 ≤ (cmoRunState (cmoInit cfg src0) srcs).negSum ∧
    ((cmoRunState (cmoInit cfg src0) srcs).posSum ≠ 0 ∨
        (cmoRunState (cmoInit cfg src0) srcs).negSum ≠ 0 →
      0 < (cmoRunState (cmoInit cfg src0) srcs).posSum +
        (cmoRunState (cmoInit cfg src0) srcs).negSum) := by
  have hpos0 : (cmoInit cfg src0).posSum = sumPos (cmoInit cfg src0).window.buf := by
    simp [cmoInit, Window.new, sumPos, cmoChange, List.map_replicate]
  have hneg0 : (cmoInit cfg src0).negSum = sumNeg (cmoInit cfg src0).window.buf := by
    simp [cmoInit, Window.new, sumNeg, cmoChange, List.map_replicate]
  obtain ⟨h1, h2⟩ := cmoRunState_preserves srcs (cmoInit cfg src0) hpos0 hneg0
  have hp : 0 ≤ (cmoRunState (cmoInit cfg src0) srcs).posSum := by
    rw [h1]; exact sumPos_nonneg _
  have hn : 0 ≤ (cmoRunState (cmoInit cfg src0) srcs).negSum := by
    rw [h2]; exact sumNeg_nonneg _
  refine ⟨h1, h2, hp, hn, ?_⟩
  rintro (hne | hne)
  · exact add_pos_of_pos_of_nonneg (lt_of_le_of_ne hp (Ne.symm hne)) hn
  · exact add_pos_of_nonneg_of_pos hp (lt_of_le_of_ne hn (Ne.symm hne))

/-- Witness for C10: default configuration, seed source 0, inputs
`[1, 3, 2]`. -/
theorem C10_cmo_sums_invariant_witness :
    (cmoRunState (cmoInit cmoDefault 0) [1, 3, 2]).posSum =
      sumPos (cmoRunState (cmoInit cmoDefault 0) [1, 3, 2]).window.buf ∧
    (cmoRunState (cmoInit cmoDefault 0) [1, 3, 2]).negSum =
      sumNeg (cmoRunState (cmoInit cmoDefault 0) [1, 3, 2]).window.buf ∧
    0 ≤ (cmoRunState (cmoInit cmoDefault 0) [1, 3, 2]).posSum ∧
    0 ≤ (cmoRunState (cmoInit cmoDefault 0) [1, 3, 2]).negSum ∧
    ((cmoRunState (cmoInit cmoDefault 0) [1, 3, 2]).posSum ≠ 0 ∨
        (cmoRunState (cmoInit cmoDefault 0) [1, 3, 2]).negSum ≠ 0 →
      0 < (cmoRunState (cmoInit cmoDefault 0) [1, 3, 2]).posSum +
        (cmoRunState (cmoInit cmoDefault 0) [1, 3, 2]).negSum) :=
  C10_cmo_sums_invariant cmoDefault 0 [1, 3, 2]

/-! ## C1: the extremum tracker matches brute-force recomputation

The proof is generic in a total order presented by `le'` (instantiated with
`≤` for `Highest` and its flip for `Lowest`), and maintains `dequeInv` — the
monotone-deque invariant — along the run. -/

/-- In a `Pairwise R` list headed by `a`, every element either is the
deque's front (`getLastD`) or relates to it. -/
theorem pairwise_rel_getLastD {β : Type} {R : β → β → Prop} :
    ∀ (l : List β) (a d : β), (a :: l).Pairwise R → ∀ e ∈ a :: l,
      e = (a :: l).getLastD d ∨ R e ((a :: l).getLastD d) := by
  intro l
  induction l with
  | nil =>
    intro a d _ e he
    left
    simp only [List.mem_singleton] at he
    subst he
    rfl
  | cons b t ih =>
    intro a d hpw e he
    rw [List.getLastD_cons]
    rcases List.mem_cons.mp he with heq | he'
    · right
      have hlast_mem : (b :: t).getLastD a ∈ b :: t := by
        rw [List.getLastD_cons]
        exact List.getLastD_mem_cons t b
      rw [heq]
      exact List.rel_of_pairwise_cons hpw hlast_mem
    · exact ih b a hpw.of_cons e he'

/-- The head of a non-empty `dropWhile` result fails the predicate. -/
theorem dropWhile_head_false {β : Type} {q : β → Bool} :
    ∀ {l : List β} {h : β} {t : List β}, l.dropWhile q = h :: t →
      q h = false := by
  intro l
  induction l with
  | nil => intro h t he; simp [List.dropWhile] at he
  | cons a l ih =>
    intro h t he
    rw [List.dropWhile_cons] at he
    split at he
    · exact ih he
    · rename_i hc
      injection he with h1 _
      subst h1
      simpa using hc

/-- If dropping `k` elements exposes `y` at the head, then `getD k` is
`y`. -/
theorem getD_of_drop_eq_cons {β : Type} :
    ∀ (xs : List β) (k : ℕ) {y : β} {ys : List β} (d : β),
      xs.drop k = y :: ys → xs.getD k d = y := by
  intro xs
  induction xs with
  | nil => intro k y ys d h; simp at h
  | cons a xs ih =>
    intro k y ys d h
    cases k with
    | zero =>
      rw [List.drop_zero] at h
      injection h with h1 _
    | succ n =>
      rw [List.drop_succ_cons] at h
      simpa using ih n d h

/-- A fold by a selection operation yields the start value or a list
element. -/
theorem foldl_extremum_mem {β : Type} {m : β → β → β}
    (hm3 : ∀ a b, m a b = a ∨ m a b = b) :
    ∀ (l : List β) (a : β), l.foldl m a = a ∨ l.foldl m a ∈ l := by
  intro l
  induction l with
  | nil => intro a; left; rfl
  | cons c l ih =>
    intro a
    rw [List.foldl_cons]
    rcases ih (m a c) with h | h
    · rw [h]
      rcases hm3 a c with h' | h'
      · left; exact h'
      · right; rw [h']; exact List.mem_cons_self _ _
    · right
      exact List.mem_cons_of_mem _ h

/-- A fold by an upper-bound operation bounds the start value and every
list element. -/
theorem foldl_extremum_bound {β : Type} {m : β → β → β} {le' : β → β → Prop}
    (hrefl : ∀ a, le' a a)
    (htrans : ∀ a b c, le' a b → le' b c → le' a c)
    (hm1 : ∀ a b, le' a (m a b)) (hm2 : ∀ a b, le' b (m a b)) :
    ∀ (l : List β) (a : β),
      le' a (l.foldl m a) ∧ ∀ b ∈ l, le' b (l.foldl m a) := by
  intro l
  induction l with
  | nil => intro a; exact ⟨hrefl a, by simp⟩
  | cons c l ih =>
    intro a
    rw [List.foldl_cons]
    obtain ⟨ih1, ih2⟩ := ih (m a c)
    refine ⟨htrans _ _ _ (hm1 a c) ih1, ?_⟩
    intro b hb
    rcases List.mem_cons.mp hb with rfl | hb'
    · exact htrans _ _ _ (hm2 a b) ih1
    · exact ih2 b hb'

/-- The brute-force trailing maximum is the window's greatest value. -/
theorem bruteHighest_windowGreatest {γ : Type} [LinearOrder γ] (seed : γ)
    (xs : List γ) (p k : ℕ) (hp : 1 ≤ p) :
    windowGreatest (· ≤ ·) seed xs p k (bruteHighest seed xs p k) := by
  rw [windowGreatest, bruteHighest]
  constructor
  · rcases foldl_extremum_mem (fun a b => max_choice a b)
        ((List.range p).map fun i => histVal seed xs (k - i))
        (histVal seed xs k) with h | h
    · exact ⟨k, le_rfl, by omega, h.symm⟩
    · obtain ⟨i, hi, heq⟩ := List.mem_map.mp h
      rw [List.mem_range] at hi
      exact ⟨k - i, Nat.sub_le k i, by omega, heq⟩
  · intro t ht hw
    have hmem : histVal seed xs t ∈
        (List.range p).map fun i => histVal seed xs (k - i) := by
      refine List.mem_map.mpr ⟨k - t, List.mem_range.mpr (by omega), ?_⟩
      congr 1
      omega
    exact (foldl_extremum_bound le_refl (fun a b c => le_trans)
      le_max_left le_max_right _ _).2 _ hmem

/-- The brute-force trailing minimum is the window's least value
(`windowGreatest` for the flipped order). -/
theorem bruteLowest_windowGreatest {γ : Type} [LinearOrder γ] (seed : γ)
    (xs : List γ) (p k : ℕ) (hp : 1 ≤ p) :
    windowGreatest (fun a b => b ≤ a) seed xs p k (bruteLowest seed xs p k) := by
  rw [windowGreatest, bruteLowest]
  constructor
  · rcases foldl_extremum_mem (fun a b => min_choice a b)
        ((List.range p).map fun i => histVal seed xs (k - i))
        (histVal seed xs k) with h | h
    · exact ⟨k, le_rfl, by omega, h.symm⟩
    · obtain ⟨i, hi, heq⟩ := List.mem_map.mp h
      rw [List.mem_range] at hi
      exact ⟨k - i, Nat.sub_le k i, by omega, heq⟩
  · intro t ht hw
    have hmem : histVal seed xs t ∈
        (List.range p).map fun i => histVal seed xs (k - i) := by
      refine List.mem_map.mpr ⟨k - t, List.mem_range.mpr (by omega), ?_⟩
      congr 1
      omega
    exact (@foldl_extremum_bound γ min (fun a b => b ≤ a) le_refl
      (fun a b c hab hbc => le_trans hbc hab)
      min_le_left min_le_right _ _).2 _ hmem

/-- A window extremum is unique. -/
theorem windowGreatest_unique {γ : Type} {le' : γ → γ → Prop}
    (hanti : ∀ a b, le' a b → le' b a → a = b) {seed : γ} {xs : List γ}
    {p k : ℕ} {v w : γ} (hv : windowGreatest le' seed xs p k v)
    (hw : windowGreatest le' seed xs p k w) : v = w := by
  obtain ⟨⟨tv, h1, h2, h3⟩, hubv⟩ := hv
  obtain ⟨⟨tw, g1, g2, g3⟩, hubw⟩ := hw
  exact hanti v w (h3 ▸ hubw tv h1 h2) (g3 ▸ hubv tw g1 g2)

/-- The deque invariant holds at construction. -/
theorem dequeInv_init {γ : Type} {le' : γ → γ → Prop} (hrefl : ∀ a, le' a a)
    (seed : γ) (xs : List γ) (p : ℕ) (hp : 1 ≤ p) :
    dequeInv le' seed xs p 0 (hlNew p seed) := by
  refine ⟨rfl, rfl, ?_, ?_, ?_⟩
  · intro e he
    simp only [hlNew, List.mem_singleton] at he
    subst he
    refine ⟨by simp [histVal], le_rfl, by omega⟩
  · exact List.pairwise_singleton _ _
  · intro t ht hw
    have ht0 : t = 0 := Nat.le_zero.mp ht
    subst ht0
    refine ⟨(seed, 0), List.mem_singleton_self _, le_rfl, ?_⟩
    simpa [histVal] using hrefl seed

/-- One step of the tracker preserves the deque invariant, and its output is
the greatest window value. -/
theorem hlStep_inv {γ : Type} {le' : γ → γ → Prop} {domb : γ → γ → Bool}
    (htot : ∀ a b, le' a b ∨ le' b a)
    (htrans : ∀ a b c, le' a b → le' b c → le' a c)
    (hdom : ∀ v w, domb v w = true ↔ le' v w)
    (seed : γ) (xs : List γ) (p k : ℕ) (hp : 1 ≤ p) (s : HLState γ)
    (hinv : dequeInv le' seed xs p k s) :
    dequeInv le' seed xs p (k + 1)
        (hlStep domb s (histVal seed xs (k + 1))).2 ∧
      windowGreatest le' seed xs p (k + 1)
        (hlStep domb s (histVal seed xs (k + 1))).1 := by
  obtain ⟨hper, hnow, hval, hpw, hdominate⟩ := hinv
  have hrefl : ∀ a, le' a a := fun a => (htot a a).elim id id
  generalize hxdef : histVal seed xs (k + 1) = x
  generalize hkept : s.deque.dropWhile (fun e => domb e.1 x) = kept
  have hunfold : hlStep domb s x =
      ((((x, k + 1) :: kept.filter fun e =>
          decide (k + 1 < e.2 + p)).getLastD (x, k + 1)).1,
        ⟨p, (x, k + 1) :: kept.filter fun e => decide (k + 1 < e.2 + p),
          k + 1⟩) := by
    rw [hlStep]
    simp only [hnow, hper, hkept]
    have hcondtrue : decide (k + 1 < (x, k + 1).2 + p) = true := by
      simp only [decide_eq_true_eq]
      show k + 1 < k + 1 + p
      omega
    rw [List.filter_cons, hcondtrue, if_pos rfl]
  set kept2 := kept.filter fun e => decide (k + 1 < e.2 + p) with hkept2
  have hkept_sub : ∀ e ∈ kept, e ∈ s.deque := fun e he =>
    (List.dropWhile_sublist _).subset (hkept ▸ he)
  have hkept_pw : kept.Pairwise fun a b => ¬le' b.1 a.1 ∧ b.2 < a.2 :=
    List.Pairwise.sublist (hkept ▸ List.dropWhile_sublist _) hpw
  have hnotdom : ∀ e ∈ kept, ¬le' e.1 x := by
    cases hk : kept with
    | nil => intro e he; simp at he
    | cons h0 t0 =>
      have hh0 : domb h0.1 x = false :=
        @dropWhile_head_false _ (fun e : γ × ℕ => domb e.1 x) _ _ _
          (hkept.trans hk)
      have hh0' : ¬le' h0.1 x := fun hc => by
        rw [(hdom _ _).mpr hc] at hh0
        exact Bool.noConfusion hh0
      have hxh0 : le' x h0.1 := (htot x h0.1).resolve_right hh0'
      intro e he
      rcases List.mem_cons.mp he with heq | he'
      · subst heq
        exact hh0'
      · have hrel := List.rel_of_pairwise_cons (hk ▸ hkept_pw) he'
        intro hc
        exact hrel.1 (htrans _ _ _ hc hxh0)
  have hkept2_sub : ∀ e ∈ kept2, e ∈ kept := fun e he =>
    (List.mem_filter.mp he).1
  have hkept2_alive : ∀ e ∈ kept2, k + 1 < e.2 + p := fun e he => by
    have := (List.mem_filter.mp he).2
    simpa using this
  -- invariant part: entry values and window times
  have hval' : ∀ e ∈ (x, k + 1) :: kept2,
      e.1 = histVal seed xs e.2 ∧ e.2 ≤ k + 1 ∧ k + 1 < e.2 + p := by
    intro e he
    rcases List.mem_cons.mp he with rfl | he'
    · exact ⟨hxdef.symm, le_rfl, by omega⟩
    · obtain ⟨hv, ht, -⟩ := hval e (hkept_sub e (hkept2_sub e he'))
      exact ⟨hv, by omega, hkept2_alive e he'⟩
  -- invariant part: pairwise strictness
  have hpw' : ((x, k + 1) :: kept2).Pairwise
      fun a b => ¬le' b.1 a.1 ∧ b.2 < a.2 := by
    rw [List.pairwise_cons]
    refine ⟨?_, List.Pairwise.sublist (List.filter_sublist _) hkept_pw⟩
    intro e he
    have hek := hkept2_sub e he
    obtain ⟨-, het, -⟩ := hval e (hkept_sub e hek)
    exact ⟨hnotdom e hek, by omega⟩
  -- invariant part: domination
  have hdominate' : ∀ t, t ≤ k + 1 → k + 1 < t + p →
      ∃ e ∈ (x, k + 1) :: kept2, t ≤ e.2 ∧ le' (histVal seed xs t) e.1 := by
    intro t ht hw
    rcases Nat.eq_or_lt_of_le ht with rfl | htk
    · refine ⟨(x, k + 1), List.mem_cons_self _ _, le_rfl, ?_⟩
      show le' (histVal seed xs (k + 1)) x
      rw [hxdef]
      exact hrefl x
    · have htk' : t ≤ k := by omega
      obtain ⟨e0, he0, hte0, hle0⟩ := hdominate t htk' (by omega)
      rw [show s.deque =
            s.deque.takeWhile (fun e => domb e.1 x) ++
              s.deque.dropWhile (fun e => domb e.1 x) from
          (List.takeWhile_append_dropWhile _ _).symm, hkept] at he0
      rcases List.mem_append.mp he0 with he0' | he0'
      · have htw := List.mem_takeWhile_imp he0'
        have hdome0 : le' e0.1 x := (hdom _ _).mp (by simpa using htw)
        exact ⟨(x, k + 1), List.mem_cons_self _ _, by omega,
          htrans _ _ _ hle0 hdome0⟩
      · have he02 : e0 ∈ kept2 := by
          rw [hkept2]
          exact List.mem_filter.mpr
            ⟨he0', by simp only [decide_eq_true_eq]; omega⟩
        exact ⟨e0, List.mem_cons_of_mem _ he02, hte0, hle0⟩
  -- the reported front value
  have hLmem : ((x, k + 1) :: kept2).getLastD (x, k + 1) ∈
      (x, k + 1) :: kept2 := by
    rw [List.getLastD_cons]
    exact List.getLastD_mem_cons kept2 (x, k + 1)
  have hub : ∀ e ∈ (x, k + 1) :: kept2,
      le' e.1 (((x, k + 1) :: kept2).getLastD (x, k + 1)).1 := by
    intro e he
    rcases pairwise_rel_getLastD kept2 (x, k + 1) (x, k + 1) hpw' e he with
      heq | hrel
    · rw [heq]
      exact hrefl _
    · exact (htot _ _).resolve_right hrel.1
  constructor
  · rw [hunfold]
    exact ⟨rfl, rfl, hval', hpw', hdominate'⟩
  · rw [hunfold]
    constructor
    · obtain ⟨hv, ht, hw⟩ :=
        hval' (((x, k + 1) :: kept2).getLastD (x, k + 1)) hLmem
      exact ⟨(((x, k + 1) :: kept2).getLastD (x, k + 1)).2, ht, hw, hv.symm⟩
    · intro t ht hw
      obtain ⟨e, he, -, hle⟩ := hdominate' t ht hw
      exact htrans _ _ _ hle (hub e he)

/-- Running the tracker from an invariant state over the remaining inputs
produces exactly the brute-force extremum at every step. -/
theorem hlRun_spec {γ : Type} {le' : γ → γ → Prop} {domb : γ → γ → Bool}
    (htot : ∀ a b, le' a b ∨ le' b a)
    (htrans : ∀ a b c, le' a b → le' b c → le' a c)
    (hanti : ∀ a b, le' a b → le' b a → a = b)
    (hdom : ∀ v w, domb v w = true ↔ le' v w)
    (seed : γ) (xs : List γ) (p : ℕ) (hp : 1 ≤ p) (bruteF : ℕ → γ)
    (hbF : ∀ m, windowGreatest le' seed xs p m (bruteF m)) :
    ∀ (ys : List γ) (k : ℕ) (s : HLState γ),
      dequeInv le' seed xs p k s → xs.drop k = ys →
      hlRunList domb s ys =
        (List.range ys.length).map fun j => bruteF (k + j + 1) := by
  intro ys
  induction ys with
  | nil => intro k s _ _; rfl
  | cons y ys ih =>
    intro k s hinv hdrop
    have hy : y = histVal seed xs (k + 1) := by
      rw [histVal, if_neg (Nat.succ_ne_zero k)]
      simpa using (getD_of_drop_eq_cons xs k seed hdrop).symm
    have hdrop' : xs.drop (k + 1) = ys := by
      rw [← List.tail_drop, hdrop]
      rfl
    obtain ⟨hinv', hwg⟩ := hlStep_inv htot htrans hdom seed xs p k hp s hinv
    have hout : (hlStep domb s y).1 = bruteF (k + 1) := by
      rw [hy]
      exact windowGreatest_unique hanti hwg (hbF (k + 1))
    have hrest : hlRunList domb (hlStep domb s y).2 ys =
        (List.range ys.length).map fun j => bruteF (k + 1 + j + 1) := by
      rw [hy]
      exact ih (k + 1) _ hinv' hdrop'
    show (hlStep domb s y).1 :: hlRunList domb (hlStep domb s y).2 ys = _
    simp only [List.length_cons]
    rw [hout, hrest, List.range_succ_eq_map, List.map_cons, List.map_map]
    refine List.cons_eq_cons.mpr ⟨by norm_num, ?_⟩
    apply List.map_congr_left
    intro j _
    simp only [Function.comp_apply]
    congr 1
    omega

/-- The `Highest` domination test decides `le'`. -/
theorem highestDomb_iff {γ : Type} [LinearOrder γ] (v w : γ) :
    highestDomb v w = true ↔ v ≤ w := by
  simp [highestDomb]

/-- The `Lowest` domination test decides the flipped order. -/
theorem lowestDomb_iff {γ : Type} [LinearOrder γ] (v w : γ) :
    lowestDomb v w = true ↔ w ≤ v := by
  simp [lowestDomb]

/-- C1: for every period `p ≥ 1`, every seed and every input sequence, the
`Highest` (respectively `Lowest`) step output at each index equals the
maximum (respectively minimum) of the trailing `p` inputs, treating history
before index 0 as the seed, exactly as brute-force recomputation over the
last `p` inputs computes it at every step. -/
theorem C1_extremum_matches_bruteforce (p : ℕ) (hp : 1 ≤ p) (seed : ℚ)
    (xs : List ℚ) :
    highestRun p seed xs =
      (List.range xs.length).map (fun k => bruteHighest seed xs p (k + 1)) ∧
    lowestRun p seed xs =
      (List.range xs.length).map (fun k => bruteLowest seed xs p (k + 1)) := by
  constructor
  · rw [highestRun]
    rw [hlRun_spec le_total (fun a b c => le_trans) (fun a b => le_antisymm)
      highestDomb_iff seed xs p hp (bruteHighest seed xs p)
      (fun m => bruteHighest_windowGreatest seed xs p m hp) xs 0 (hlNew p seed)
      (@dequeInv_init ℚ (fun a b => a ≤ b) (fun a => le_refl a) seed xs p hp)
      (by simp)]
    refine List.map_congr_left ?_
    intro j _
    show bruteHighest seed xs p (0 + j + 1) = bruteHighest seed xs p (j + 1)
    congr 1
    omega
  · rw [lowestRun]
    rw [@hlRun_spec ℚ (fun a b => b ≤ a) lowestDomb (fun a b => le_total b a)
      (fun a b c hab hbc => le_trans hbc hab)
      (fun a b hab hba => le_antisymm hba hab) lowestDomb_iff seed xs p hp
      (bruteLowest seed xs p)
      (fun m => bruteLowest_windowGreatest seed xs p m hp) xs 0 (hlNew p seed)
      (@dequeInv_init ℚ (fun a b => b ≤ a) (fun a => le_refl a) seed xs p hp)
      (by simp)]
    refine List.map_congr_left ?_
    intro j _
    show bruteLowest seed xs p (0 + j + 1) = bruteLowest seed xs p (j + 1)
    congr 1
    omega

/-- Witness for C1: period 3, seed 5, inputs `5,7,3,9,4,4,8` (spec
scenarios 2 and 3). -/
theorem C1_extremum_matches_bruteforce_witness :
    1 ≤ 3 ∧
      (highestRun 3 (5 : ℚ) [5, 7, 3, 9, 4, 4, 8] =
        (List.range ([5, 7, 3, 9, 4, 4, 8] : List ℚ).length).map
          (fun k => bruteHighest 5 [5, 7, 3, 9, 4, 4, 8] 3 (k + 1)) ∧
      lowestRun 3 (5 : ℚ) [5, 7, 3, 9, 4, 4, 8] =
        (List.range ([5, 7, 3, 9, 4, 4, 8] : List ℚ).length).map
          (fun k => bruteLowest 5 [5, 7, 3, 9, 4, 4, 8] 3 (k + 1))) :=
  ⟨by norm_num,
   C1_extremum_matches_bruteforce 3 (by norm_num) 5 [5, 7, 3, 9, 4, 4, 8]⟩

/-! ## C9: the Fisher normalisation divisor -/

/-- C9: the divisor `h - l + 1 - is_different` in
`TVFisherTransformInstance::next` is never zero — it equals 1 when `h = l`
and `h - l` (nonzero) when `h ≠ l` — so the normalisation division is total
for all inputs. -/
theorem C9_fisher_divisor_nonzero (h l : ℝ) :
    tvfDivisor h l ≠ 0 ∧ (h = l → tvfDivisor h l = 1) ∧
      (h ≠ l → tvfDivisor h l = h - l) := by
  by_cases heq : h = l
  · subst heq
    refine ⟨?_, fun _ => ?_, fun hc => absurd rfl hc⟩
    · simp [tvfDivisor, tvfIsDifferent]
    · simp [tvfDivisor, tvfIsDifferent]
  · have hd : tvfDivisor h l = h - l := by
      rw [tvfDivisor, tvfIsDifferent, if_pos heq]
      ring
    refine ⟨?_, fun hc => absurd hc heq, fun _ => hd⟩
    rw [hd]
    exact sub_ne_zero.mpr heq

/-- Witness for C9 at `h = l = 1` and at `h = 2`, `l = 1`. -/
theorem C9_fisher_divisor_nonzero_witness :
    tvfDivisor 1 1 = 1 ∧ tvfDivisor 2 1 = 2 - 1 ∧ tvfDivisor 2 1 ≠ 0 :=
  ⟨(C9_fisher_divisor_nonzero 1 1).2.1 rfl,
   (C9_fisher_divisor_nonzero 2 1).2.2 (by norm_num),
   (C9_fisher_divisor_nonzero 2 1).1⟩

/-! ## C4: the signal-2 edge detector on equal fisher values

`new_state = fisher_transform > prev_fish` treats equality as "not above",
so a step on which the fisher value exactly equals `prev_fish` flips the
state to `false`; if the previous state was `true` this fires `s2 = -1`.
The counterexample drives a freshly initialised instance (period1 = 3, seed
source 0) with the input 1 — which makes the fisher value rise, setting
`prev_state = true` — and then with `tvfSrc2`, which reproduces the stored
fisher value exactly. -/

theorem sqrtR_gt_one : 1 < Real.sqrt (133 / 67) := by
  have h := (Real.lt_sqrt (by norm_num : (0 : ℝ) ≤ 1)).mpr
    (by norm_num : (1 : ℝ) ^ 2 < 133 / 67)
  exact h

theorem sqrtR_lt_two : Real.sqrt (133 / 67) < 2 :=
  (Real.sqrt_lt' (by norm_num : (0 : ℝ) < 2)).mpr (by norm_num)

theorem tvfBeta_pos : 0 < tvfBeta := by
  rw [tvfBeta]
  have h := sqrtR_gt_one
  exact div_pos (by linarith) (by linarith)

theorem tvfBeta_lt_half : tvfBeta < 1 / 2 := by
  rw [tvfBeta]
  have h1 := sqrtR_gt_one
  have h2 := sqrtR_lt_two
  rw [div_lt_iff₀ (by linarith : (0 : ℝ) < Real.sqrt (133 / 67) + 1)]
  linarith

theorem logR_pos : 0 < Real.log (133 / 67) :=
  Real.log_pos (by norm_num)

theorem logR_le : Real.log (133 / 67) ≤ 133 / 67 - 1 :=
  Real.log_le_sub_one_of_pos (by norm_num)

theorem tvfSrc2_pos : 0 < tvfSrc2 := by
  rw [tvfSrc2]
  have h := tvfBeta_pos
  exact div_pos (by norm_num; linarith) (by norm_num)

theorem tvfSrc2_lt_one : tvfSrc2 < 1 := by
  rw [tvfSrc2, div_lt_one (by norm_num : (0 : ℝ) < 0.66)]
  have h := tvfBeta_lt_half
  norm_num
  linarith

/-- The clamp does not touch `tvfBeta`. -/
theorem boundValue_beta : boundValue tvfBeta = tvfBeta := by
  have h1 := tvfBeta_pos
  have h2 := tvfBeta_lt_half
  rw [boundValue, min_eq_left (by norm_num; linarith),
    max_eq_left (by norm_num; linarith)]

/-- The key log identity: at `bound_val = tvfBeta` the log term is half the
log produced at `bound_val = 0.33`. -/
theorem log_ratio_beta :
    Real.log ((1 + tvfBeta) / (1 - tvfBeta)) = Real.log (133 / 67) / 2 := by
  have hs1 := sqrtR_gt_one
  have hsp : (0 : ℝ) < Real.sqrt (133 / 67) + 1 := by linarith
  have h1 : 1 + tvfBeta =
      2 * Real.sqrt (133 / 67) / (Real.sqrt (133 / 67) + 1) := by
    rw [tvfBeta]
    field_simp
    ring
  have h2 : 1 - tvfBeta = 2 / (Real.sqrt (133 / 67) + 1) := by
    rw [tvfBeta]
    field_simp
    ring
  have hratio : (1 + tvfBeta) / (1 - tvfBeta) = Real.sqrt (133 / 67) := by
    rw [h1, h2]
    field_simp
    ring
  rw [hratio, Real.log_sqrt (by norm_num : (0 : ℝ) ≤ 133 / 67)]

/-- Step 1 of the `Highest` tracker: seed 0, input 1. -/
theorem hlStep1H :
    hlStep highestDomb (hlNew 3 (0 : ℝ)) 1 = (1, ⟨3, [(1, 1)], 1⟩) := by
  have hc : highestDomb (0 : ℝ) 1 = true :=
    decide_eq_true (by norm_num : (0 : ℝ) ≤ 1)
  norm_num [hlStep, hlNew, List.dropWhile_cons, List.dropWhile_nil,
    List.filter_cons, List.filter_nil, hc, List.getLastD_cons,
    List.getLastD_nil]

/-- Step 1 of the `Lowest` tracker: seed 0, input 1. -/
theorem hlStep1L :
    hlStep lowestDomb (hlNew 3 (0 : ℝ)) 1 = (0, ⟨3, [(1, 1), (0, 0)], 1⟩) := by
  have hc : lowestDomb (0 : ℝ) 1 = false :=
    decide_eq_false (by norm_num : ¬(1 : ℝ) ≤ 0)
  norm_num [hlStep, hlNew, List.dropWhile_cons, List.dropWhile_nil,
    List.filter_cons, List.filter_nil, hc, List.getLastD_cons,
    List.getLastD_nil]

/-- Step 2 of the `Highest` tracker at the counterexample input. -/
theorem hlStep2H :
    hlStep highestDomb (⟨3, [((1 : ℝ), 1)], 1⟩ : HLState ℝ) tvfSrc2 =
      (1, ⟨3, [(tvfSrc2, 2), (1, 1)], 2⟩) := by
  have hc : highestDomb (1 : ℝ) tvfSrc2 = false :=
    decide_eq_false (not_le.mpr tvfSrc2_lt_one)
  norm_num [hlStep, List.dropWhile_cons, List.dropWhile_nil,
    List.filter_cons, List.filter_nil, hc, List.getLastD_cons,
    List.getLastD_nil]

/-- Step 2 of the `Lowest` tracker at the counterexample input. -/
theorem hlStep2L :
    hlStep lowestDomb (⟨3, [((1 : ℝ), 1), (0, 0)], 1⟩ : HLState ℝ) tvfSrc2 =
      (0, ⟨3, [(tvfSrc2, 2), (0, 0)], 2⟩) := by
  have hc1 : lowestDomb (1 : ℝ) tvfSrc2 = true :=
    decide_eq_true (le_of_lt tvfSrc2_lt_one)
  have hc0 : lowestDomb (0 : ℝ) tvfSrc2 = false :=
    decide_eq_false (not_le.mpr tvfSrc2_pos)
  norm_num [hlStep, List.dropWhile_cons, List.dropWhile_nil,
    List.filter_cons, List.filter_nil, hc1, hc0, List.getLastD_cons,
    List.getLastD_nil]

/-- The first step's `v1` is exactly `0.33`. -/
theorem tvfV1_init : tvfV1 (tvfInit tvfCfg 0) 1 = 0.33 := by
  rw [tvfV1, tvfH, tvfL]
  show 0.66 * ((1 - (hlStep lowestDomb (hlNew 3 (0 : ℝ)) 1).1) /
      tvfDivisor (hlStep highestDomb (hlNew 3 (0 : ℝ)) 1).1
        (hlStep lowestDomb (hlNew 3 (0 : ℝ)) 1).1 - 0.5) + 0.67 * 0 = 0.33
  rw [hlStep1H, hlStep1L]
  have hdiv : tvfDivisor (1 : ℝ) 0 = 1 := by
    rw [tvfDivisor, tvfIsDifferent, if_pos (by norm_num : (1 : ℝ) ≠ 0)]
    ring
  rw [hdiv]
  norm_num

/-- The first step's fisher value. -/
theorem tvfFisher_init :
    tvfFisher (tvfInit tvfCfg 0) 1 = 0.5 * Real.log (133 / 67) := by
  rw [tvfFisher, tvfV1_init]
  have hb : boundValue 0.33 = (0.33 : ℝ) := by
    rw [boundValue, min_eq_left (by norm_num), max_eq_left (by norm_num)]
  rw [hb]
  show 0.5 * Real.log ((1 + 0.33) / (1 - 0.33)) + 0.5 * 0 =
    0.5 * Real.log (133 / 67)
  rw [show ((1 : ℝ) + 0.33) / (1 - 0.33) = 133 / 67 by norm_num]
  ring

/-- The reachable state `tvfSt1`, field by field. -/
theorem tvfSt1_highest : tvfSt1.highest = ⟨3, [(1, 1)], 1⟩ := by
  show (hlStep highestDomb (hlNew 3 (0 : ℝ)) 1).2 = _
  rw [hlStep1H]

theorem tvfSt1_lowest : tvfSt1.lowest = ⟨3, [(1, 1), (0, 0)], 1⟩ := by
  show (hlStep lowestDomb (hlNew 3 (0 : ℝ)) 1).2 = _
  rw [hlStep1L]

theorem tvfSt1_prev_value : tvfSt1.prev_value = 0.33 := by
  show tvfV1 (tvfInit tvfCfg 0) 1 = 0.33
  exact tvfV1_init

theorem tvfSt1_prev_fish : tvfSt1.prev_fish = 0.5 * Real.log (133 / 67) := by
  show tvfFisher (tvfInit tvfCfg 0) 1 = _
  exact tvfFisher_init

theorem tvfSt1_prev_state : tvfSt1.prev_state = true := by
  show decide ((0 : ℝ) < tvfFisher (tvfInit tvfCfg 0) 1) = true
  rw [tvfFisher_init]
  refine decide_eq_true ?_
  have h := logR_pos
  linarith

/-- The second step's `v1` hits `tvfBeta` exactly. -/
theorem tvfV1_st1 : tvfV1 tvfSt1 tvfSrc2 = tvfBeta := by
  rw [tvfV1, tvfH, tvfL, tvfSt1_highest, tvfSt1_lowest, tvfSt1_prev_value,
    hlStep2H, hlStep2L]
  show 0.66 * ((tvfSrc2 - 0) / tvfDivisor 1 0 - 0.5) + 0.67 * 0.33 = tvfBeta
  have hdiv : tvfDivisor (1 : ℝ) 0 = 1 := by
    rw [tvfDivisor, tvfIsDifferent, if_pos (by norm_num : (1 : ℝ) ≠ 0)]
    ring
  rw [hdiv, tvfSrc2]
  field_simp
  ring

/-- The second step's fisher value equals the stored `prev_fish` exactly. -/
theorem tvfFisher_st1 :
    (tvfNext tvfSt1 tvfSrc2).1.value1 = tvfSt1.prev_fish := by
  show tvfFisher tvfSt1 tvfSrc2 = tvfSt1.prev_fish
  rw [tvfFisher, tvfV1_st1, boundValue_beta, log_ratio_beta,
    tvfSt1_prev_fish]
  ring

/-- C4 counterexample: from the valid configuration `period1 = 3`,
`zone = 1.5`, the reachable state `tvfSt1` (init at source 0, then one
`next` at source 1) has `prev_state = true`; feeding `tvfSrc2` computes a
fisher value exactly equal to the stored `prev_fish`, yet the second signal
is `-1`, not 0 — equality does fire a signal. -/
theorem C4_equal_fisher_counterexample :
    tvfValidate tvfCfg ∧ tvfSt1.prev_state = true ∧
      (tvfNext tvfSt1 tvfSrc2).1.value1 = tvfSt1.prev_fish ∧
      (tvfNext tvfSt1 tvfSrc2).1.s2 = -1 := by
  refine ⟨?_, tvfSt1_prev_state, tvfFisher_st1, ?_⟩
  · rw [tvfValidate]
    exact le_rfl
  · show (if (decide (tvfSt1.prev_fish < tvfFisher tvfSt1 tvfSrc2) ≠
        tvfSt1.prev_state) then
          ((if decide (tvfSt1.prev_fish < tvfFisher tvfSt1 tvfSrc2) then
            (1 : ℤ) else 0) * 2 - 1)
        else 0) = -1
    have hfe : tvfFisher tvfSt1 tvfSrc2 = tvfSt1.prev_fish := tvfFisher_st1
    rw [hfe, decide_eq_false (lt_irrefl tvfSt1.prev_fish),
      tvfSt1_prev_state]
    norm_num

/-- C4 amended: on a step of `TVFisherTransformInstance::next` where the
newly computed fisher value equals the stored `prev_fish`, the second
signal is 0 when `prev_state` is `false`, but `-1` when `prev_state` is
`true`: equality counts as "not above", so it can fire a sell signal. -/
theorem C4_equal_fisher_amended (st : TVFInstance) (src : ℝ)
    (heq : (tvfNext st src).1.value1 = st.prev_fish) :
    (tvfNext st src).1.s2 = if st.prev_state then -1 else 0 := by
  have hfe : tvfFisher st src = st.prev_fish := heq
  show (if (decide (st.prev_fish < tvfFisher st src) ≠ st.prev_state) then
      ((if decide (st.prev_fish < tvfFisher st src) then (1 : ℤ) else 0) *
        2 - 1)
    else 0) = if st.prev_state then -1 else 0
  rw [hfe, decide_eq_false (lt_irrefl st.prev_fish)]
  cases hps : st.prev_state <;> simp

/-- The hand-built witness state reproduces `fisher = prev_fish` at source
0 (the log term vanishes at `bound_val = 0`). -/
theorem tvfWitness_fisher :
    (tvfNext tvfWitnessState 0).1.value1 = tvfWitnessState.prev_fish := by
  show tvfFisher tvfWitnessState 0 = tvfWitnessState.prev_fish
  have hcH : highestDomb (0 : ℝ) 0 = true := decide_eq_true le_rfl
  have hcL : lowestDomb (0 : ℝ) 0 = true := decide_eq_true le_rfl
  have hH : (hlStep highestDomb (hlNew 3 (0 : ℝ)) 0).1 = 0 := by
    norm_num [hlStep, hlNew, List.dropWhile_cons, List.dropWhile_nil,
      List.filter_cons, List.filter_nil, hcH, List.getLastD_cons,
      List.getLastD_nil]
  have hL : (hlStep lowestDomb (hlNew 3 (0 : ℝ)) 0).1 = 0 := by
    norm_num [hlStep, hlNew, List.dropWhile_cons, List.dropWhile_nil,
      List.filter_cons, List.filter_nil, hcL, List.getLastD_cons,
      List.getLastD_nil]
  have hdiv : tvfDivisor (0 : ℝ) 0 = 1 := by
    rw [tvfDivisor, tvfIsDifferent, if_neg (by simp)]
    ring
  have hV : tvfV1 tvfWitnessState 0 = 0 := by
    rw [tvfV1, tvfH, tvfL]
    show 0.66 * ((0 - (hlStep lowestDomb (hlNew 3 (0 : ℝ)) 0).1) /
        tvfDivisor (hlStep highestDomb (hlNew 3 (0 : ℝ)) 0).1
          (hlStep lowestDomb (hlNew 3 (0 : ℝ)) 0).1 - 0.5) +
      0.67 * (33 / 67) = 0
    rw [hH, hL, hdiv]
    norm_num
  rw [tvfFisher, hV]
  have hb : boundValue 0 = (0 : ℝ) := by
    rw [boundValue, min_eq_left (by norm_num), max_eq_left (by norm_num)]
  rw [hb]
  show 0.5 * Real.log ((1 + 0) / (1 - 0)) + 0.5 * 0 = 0
  rw [show ((1 : ℝ) + 0) / (1 - 0) = 1 by norm_num, Real.log_one]
  ring

/-- Witness for the amended C4 at the hand-built state with
`prev_state = false`: equality then yields `s2 = 0`. -/
theorem C4_equal_fisher_amended_witness :
    (tvfNext tvfWitnessState 0).1.value1 = tvfWitnessState.prev_fish ∧
      (tvfNext tvfWitnessState 0).1.s2 =
        if tvfWitnessState.prev_state then -1 else 0 :=
  ⟨tvfWitness_fisher,
   C4_equal_fisher_amended tvfWitnessState 0 tvfWitness_fisher⟩

end Yata
